import Mathlib

/-!
Verification of the mod identity-matching and upgrade-diff core of
CanIUpgradeBeatSaber against its natural-language specification.

The definitions below are a shallow embedding of the Python source:

* `FileHash`, `Mod`, `Mod.do_names_match`, `Mod.do_file_hashes_match`
  — src/model/mod.py
* `intersect_against_available`, `upgrade_diff` — src/util/installed_mods.py
* `BeatModsVersion` with its `gt` / `eq` — src/model/beat_mods_version.py
* `mod_name_sort_order` — src/upgrade_check.py

Python's `Mod` class defines no custom equality, so Python list membership
tests on mods (`installed not in found_match`, `available not in
installed_available`) compare object identity.  Every caller in the
repository builds each list element as a separately constructed object, so
two list elements are identical exactly when they sit at the same position;
the embedding therefore threads the position (via `List.enum`) alongside
each mod and models those membership tests as index membership.
-/

namespace BSUpgrade

/-- Embeds the `FileHash` class of src/model/mod.py: a file path and the md5
digest of the file's content.  The Python `__eq__` compares only `hash`;
where the source relies on that (`file in other_files_flat`), the embedding
compares the `hash` fields explicitly. -/
structure FileHash where
  file : String
  hash : String
deriving DecidableEq, Repr

/-- Embeds the `Mod` class of src/model/mod.py: a name, an optional version
and link (present only for catalog mods), and file hashes grouped by
download archive. -/
structure Mod where
  name : String
  version : Option String
  link : Option String
  files : List (List FileHash)
deriving DecidableEq, Repr

/-- Embeds `Mod.do_names_match`: two mods match by name iff their `name`
strings are equal. -/
def Mod.do_names_match (self other : Mod) : Bool :=
  self.name == other.name

/-- Embeds `Mod.do_file_hashes_match`: flatten both mods' file groups and
test whether any file of `self` occurs in the flattened files of `other`,
where `FileHash.__eq__` compares the digests only. -/
def Mod.do_file_hashes_match (self other : Mod) : Bool :=
  let selfFlat := self.files.flatten
  let otherFlat := other.files.flatten
  selfFlat.any (fun f => otherFlat.any (fun g => f.hash == g.hash))

/-- Embeds Python's `str.split('.')` at the character-list level:
splits into the (never empty) list of dot-free segments, keeping empty
segments exactly as Python does. -/
def splitSegs : List Char → List (List Char)
  | [] => [[]]
  | c :: rest =>
    match splitSegs rest with
    | [] => [[c]]
    | seg :: rem => if c = '.' then [] :: seg :: rem else (c :: seg) :: rem

/-- The dot-separated segments of a version string, as Python's
`version.split('.')` produces them. -/
def segs (s : String) : List (List Char) :=
  splitSegs s.data

/-- Python's lexicographic `<` on strings (by code point), at the
character-list level. -/
def lexLt : List Char → List Char → Bool
  | [], [] => false
  | [], _ :: _ => true
  | _ :: _, [] => false
  | a :: as, b :: bs => if a = b then lexLt as bs else decide (a < b)

/-- Embeds one comparison loop of `BeatModsVersion.__gt__`
(src/model/beat_mods_version.py): walk the zipped segment lists; at a pair
of different string lengths return whether the left is longer; at a pair of
equal length but different content return the string comparison; `none`
means the loop finished without returning (no decision). -/
def segDecide : List (List Char) → List (List Char) → Option Bool
  | a :: as, b :: bs =>
    if a.length ≠ b.length then some (decide (b.length < a.length))
    else if a ≠ b then some (lexLt b a)
    else segDecide as bs
  | _, _ => none

/-- Embeds the `BeatModsVersion` class: a BeatMods compatibility version
and a Beat Saber display alias. -/
structure BeatModsVersion where
  version : String
  «alias» : String
deriving DecidableEq, Repr

/-- The alias half of `BeatModsVersion.__gt__`: the second loop, reached
only when the version loop returned nothing, followed by the final
`return False`. -/
def BeatModsVersion.gtAliasOnly (a b : BeatModsVersion) : Bool :=
  match segDecide (segs a.«alias») (segs b.«alias») with
  | some r => r
  | none => false

/-- Embeds `BeatModsVersion.__gt__`: compare the dot-segments of `version`;
any early return inside that loop decides, otherwise the same loop runs
over `alias`, and if that also decides nothing the result is `false`. -/
def BeatModsVersion.gt (a b : BeatModsVersion) : Bool :=
  match segDecide (segs a.version) (segs b.version) with
  | some r => r
  | none => BeatModsVersion.gtAliasOnly a b

/-- Embeds `BeatModsVersion.__eq__` (the `isinstance` and `None` guards are
vacuous in the typed embedding): both fields must match exactly. -/
def BeatModsVersion.eq (a b : BeatModsVersion) : Bool :=
  a.version == b.version && a.«alias» == b.«alias»

/-- Embeds the inner `for available in available_mods_for_version` loop of
`intersect_against_available` (src/util/installed_mods.py) for one
installed mod.  `iIdx` is the position of `installed` in the installed
list; catalog entries carry their positions.  For every catalog entry whose
files match (there is no `break` in the source, so the scan always runs to
the end of the catalog), the source appends `installed` to
`installed_mods_found_available` (modeled by appending `iIdx` to `found`)
and appends the catalog entry to `installed_available` unless that object
is already present (identity membership, modeled by its position). -/
def scanCatalog (iIdx : Nat) (installed : Mod) :
    List (Nat × Mod) → List (Nat × Mod) → List Nat → List (Nat × Mod) × List Nat
  | [], avail, found => (avail, found)
  | (aIdx, a) :: rest, avail, found =>
    if a.do_file_hashes_match installed then
      scanCatalog iIdx installed rest
        (if avail.any (fun p => p.fst == aIdx) then avail else avail ++ [(aIdx, a)])
        (found ++ [iIdx])
    else
      scanCatalog iIdx installed rest avail found

/-- Embeds the outer `for installed in installed_mods` loop of
`intersect_against_available`: skip an installed mod whose object is
already in `installed_mods_found_available` (identity membership on
positions), otherwise scan the whole catalog for it. -/
def intersectGo :
    List (Nat × Mod) → List (Nat × Mod) → List (Nat × Mod) → List Nat → List (Nat × Mod) × List Nat
  | [], _, avail, found => (avail, found)
  | (iIdx, installed) :: rest, catalog, avail, found =>
    if found.contains iIdx then
      intersectGo rest catalog avail found
    else
      let res := scanCatalog iIdx installed catalog avail found
      intersectGo rest catalog res.fst res.snd

/-- Embeds `intersect_against_available` (src/util/installed_mods.py):
partitions the installed mods into the deduplicated list of matching
catalog mods (`installed_available`) and the installed mods that matched
nothing (`installed_not_available`, in input order). -/
def intersect_against_available (installed_mods available_mods_for_version : List Mod) :
    List Mod × List Mod :=
  let res := intersectGo installed_mods.enum available_mods_for_version.enum [] []
  (res.fst.map Prod.snd,
   (installed_mods.enum.filter (fun p => !res.snd.contains p.fst)).map Prod.snd)

/-- Embeds the loop body of `upgrade_diff` (src/util/installed_mods.py):
for each installed mod not already in `found_match` (identity membership on
positions), find the first available mod with a matching name (`break` on
the first hit) and emit the pair, or emit `(installed, None)` when the
catalog scan found nothing. -/
def upgradeDiffGo :
    List (Nat × Mod) → List Mod → List (Mod × Option Mod) → List Nat → List (Mod × Option Mod)
  | [], _, pairs, _ => pairs
  | (iIdx, installed) :: rest, available, pairs, found =>
    if found.contains iIdx then
      upgradeDiffGo rest available pairs found
    else
      match available.find? (fun a => installed.do_names_match a) with
      | some a => upgradeDiffGo rest available (pairs ++ [(installed, some a)]) (found ++ [iIdx])
      | none => upgradeDiffGo rest available (pairs ++ [(installed, none)]) found

/-- Embeds `upgrade_diff` (src/util/installed_mods.py): pairs installed
mods with the first same-named available mod, or with `none`. -/
def upgrade_diff (installed_mods available_mods : List Mod) : List (Mod × Option Mod) :=
  upgradeDiffGo installed_mods.enum available_mods [] []

/-- Embeds the string branch of `mod_name_sort_order` (src/upgrade_check.py):
the sort key maps the bootstrap loader's name "BSIPA" to the empty string
and leaves every other name unchanged. -/
def mod_name_sort_order (name : String) : String :=
  if name == "BSIPA" then "" else name

/-- Embeds the `Mod` branch of `mod_name_sort_order`: the key of a mod is
the key of its name. -/
def modSortKey (m : Mod) : String :=
  mod_name_sort_order m.name

/-- Python's `<` on strings, as used by `sorted` to compare keys. -/
def strLt (a b : String) : Bool :=
  lexLt a.data b.data

/-- One insertion step of a stable insertion sort: place `x` before the
first element whose key is not smaller than the key of `x`. -/
def insertSorted (key : α → String) (x : α) : List α → List α
  | [] => [x]
  | y :: ys => if !strLt (key y) (key x) then x :: y :: ys else y :: insertSorted key x ys

/-- Python's stable `sorted(l, key=key)` where keys are strings compared
with Python's `<`. -/
def pySorted (key : α → String) (l : List α) : List α :=
  l.foldr (insertSorted key) []

/-- Stated from the spec's wording of the ordering algorithm (§3): look at
the first differing segment pair of the zipped segment lists; if the
segments' string lengths differ the longer is greater, otherwise
lexicographic order decides; no differing pair means no decision. -/
def specSegDecide (xs ys : List (List Char)) : Option Bool :=
  match (xs.zip ys).find? (fun p => p.fst != p.snd) with
  | some p =>
    some (if p.fst.length ≠ p.snd.length then decide (p.snd.length < p.fst.length)
          else lexLt p.snd p.fst)
  | none => none

/-- Stated from the spec's wording of the ordering algorithm (§3): decide
on `compatibilityVersion`; if that yields no decision apply the same
procedure to `displayAlias`; if that also yields no decision the answer is
`false`. -/
def specGt (a b : BeatModsVersion) : Bool :=
  match specSegDecide (segs a.version) (segs b.version) with
  | some r => r
  | none =>
    match specSegDecide (segs a.«alias») (segs b.«alias») with
    | some r => r
    | none => false

/-! ## Helper lemmas -/

theorem lexLt_nil_right (l : List Char) : lexLt l [] = false := by
  cases l <;> rfl

theorem segDecide_eq_spec : ∀ xs ys : List (List Char), segDecide xs ys = specSegDecide xs ys := by
  intro xs
  induction xs with
  | nil => intro ys; cases ys <;> rfl
  | cons a as ih =>
    intro ys
    cases ys with
    | nil => rfl
    | cons b bs =>
      by_cases heq : a = b
      · subst heq
        have hlen : ¬a.length ≠ a.length := by simp
        simp [segDecide, specSegDecide, hlen, ih, List.find?]
        rfl
      · have hne : (a != b) = true := bne_iff_ne.mpr heq
        by_cases hlen : a.length ≠ b.length
        · simp [segDecide, specSegDecide, hlen, heq, List.find?, hne]
        · simp [segDecide, specSegDecide, hlen, heq, List.find?, hne]

/-- If every zipped segment pair is equal, the comparison loop reaches the
end of the zip without returning. -/
theorem segDecide_none_of_zip_eq :
    ∀ xs ys : List (List Char),
      ((xs.zip ys).all (fun p => p.fst == p.snd)) = true → segDecide xs ys = none := by
  intro xs
  induction xs with
  | nil => intro ys _; cases ys <;> rfl
  | cons a as ih =>
    intro ys hall
    cases ys with
    | nil => rfl
    | cons b bs =>
      simp only [List.zip_cons_cons, List.all_cons, Bool.and_eq_true, beq_iff_eq] at hall
      obtain ⟨rfl, hrest⟩ := hall
      have hlen : ¬a.length ≠ a.length := by simp
      simp [segDecide, hlen, ih bs hrest]

/-! ## Claim theorems: version ordering -/

/-- Claim C2 (counterexample): the spec claims
`("1.2.3","1.2.3") > ("1.2.10","1.2.10")` evaluates to true, but the code's
length tie-break makes the longer segment `"10"` greater, so the comparison
evaluates to false. -/
theorem c2_counterexample :
    BeatModsVersion.gt ⟨"1.2.3", "1.2.3"⟩ ⟨"1.2.10", "1.2.10"⟩ = false := by
  decide

/-- Claim C2 (amended): `("1.20.0","1.20.0") > ("1.13.4","1.15.0")` is
true, while `("1.2.3","1.2.3") > ("1.2.10","1.2.10")` is false — the
length tie-break makes `"10"` greater than `"3"`, so the reversed
comparison `("1.2.10","1.2.10") > ("1.2.3","1.2.3")` is the true one. -/
theorem c2_version_ordering_examples :
    BeatModsVersion.gt ⟨"1.20.0", "1.20.0"⟩ ⟨"1.13.4", "1.15.0"⟩ = true
    ∧ BeatModsVersion.gt ⟨"1.2.3", "1.2.3"⟩ ⟨"1.2.10", "1.2.10"⟩ = false
    ∧ BeatModsVersion.gt ⟨"1.2.10", "1.2.10"⟩ ⟨"1.2.3", "1.2.3"⟩ = true := by
  refine ⟨by decide, by decide, by decide⟩

/-- Claim C4: the code's ordering agrees everywhere with the spec's
algorithm — decide at the first differing zipped segment pair of
`compatibilityVersion` (longer segment wins, else lexicographic), fall
through to `displayAlias`, and default to false. -/
theorem c4_ordering_algorithm (a b : BeatModsVersion) :
    BeatModsVersion.gt a b = specGt a b := by
  unfold BeatModsVersion.gt BeatModsVersion.gtAliasOnly specGt
  rw [segDecide_eq_spec, segDecide_eq_spec]

/-- Claim C5: order-equivalence is coarser than equality — a pair of
identifiers exists that the ordering cannot separate in either direction
yet `eq` rejects, and in general `eq` demands exact equality of both
fields. -/
theorem c5_order_equivalence_coarser :
    (BeatModsVersion.gt ⟨"1.2", "1"⟩ ⟨"1.2.3", "1"⟩ = false
      ∧ BeatModsVersion.gt ⟨"1.2.3", "1"⟩ ⟨"1.2", "1"⟩ = false
      ∧ BeatModsVersion.eq ⟨"1.2", "1"⟩ ⟨"1.2.3", "1"⟩ = false)
    ∧ ∀ a b : BeatModsVersion,
        BeatModsVersion.eq a b = true ↔ a.version = b.version ∧ a.«alias» = b.«alias» := by
  refine ⟨⟨by decide, by decide, by decide⟩, ?_⟩
  intro a b
  simp [BeatModsVersion.eq]

/-- Claim C10: when every zipped pair of `compatibilityVersion` segments is
equal but the two strings split into different numbers of segments, the
extra trailing segments are ignored and the comparison is decided by the
`displayAlias` loop alone. -/
theorem c10_trailing_segments_ignored (a b : BeatModsVersion)
    (hzip : ((segs a.version).zip (segs b.version)).all (fun p => p.fst == p.snd) = true)
    (_hlen : (segs a.version).length ≠ (segs b.version).length) :
    BeatModsVersion.gt a b = BeatModsVersion.gtAliasOnly a b := by
  unfold BeatModsVersion.gt
  rw [segDecide_none_of_zip_eq _ _ hzip]

/-- Claim C10 (witness): an identifier with version "1.2" and one with
version "1.2.3" sharing the alias "1.0" compare as not greater. -/
theorem c10_witness :
    BeatModsVersion.gt ⟨"1.2", "1.0"⟩ ⟨"1.2.3", "1.0"⟩ = false :=
  Eq.trans (c10_trailing_segments_ignored ⟨"1.2", "1.0"⟩ ⟨"1.2.3", "1.0"⟩ (by decide) (by decide))
    (by decide)

/-! ## Helper lemmas: enumerated lists -/

theorem enum_fst_inj {α : Type} {l : List α} {p q : Nat × α}
    (hp : p ∈ l.enum) (hq : q ∈ l.enum) (h : p.fst = q.fst) : p.snd = q.snd := by
  have hp' := List.mem_enum_iff_getElem?.1 hp
  have hq' := List.mem_enum_iff_getElem?.1 hq
  rw [h, hq'] at hp'
  exact (Option.some_inj.1 hp').symm

theorem exists_enum_snd {α : Type} (P : α → Prop) (l : List α) :
    (∃ q ∈ l.enum, P q.snd) ↔ ∃ a ∈ l, P a := by
  constructor
  · rintro ⟨q, hq, hP⟩
    refine ⟨q.snd, ?_, hP⟩
    rw [← List.enum_map_snd l]
    exact List.mem_map_of_mem _ hq
  · rintro ⟨a, ha, hP⟩
    rw [← List.enum_map_snd l] at ha
    obtain ⟨q, hq, rfl⟩ := List.mem_map.1 ha
    exact ⟨q, hq, hP⟩

theorem enumFrom_filter_map_snd {α : Type} (q : α → Bool) :
    ∀ (l : List α) (n : Nat),
      ((l.enumFrom n).filter (fun p => q p.snd)).map Prod.snd = l.filter q := by
  intro l
  induction l with
  | nil => intro n; rfl
  | cons x xs ih =>
    intro n
    by_cases h : q x = true <;>
      simp [List.enumFrom, List.filter_cons, h, ih]

/-! ## Helper lemmas: reconciliation -/

/-- Membership in `installed_mods_found_available` after one catalog scan:
the indices recorded are the old ones plus the scanned mod's index, the
latter exactly when some catalog entry file-matches it. -/
theorem scan_found_mem (iIdx : Nat) (installed : Mod) :
    ∀ (cat avail : List (Nat × Mod)) (found : List Nat) (j : Nat),
      j ∈ (scanCatalog iIdx installed cat avail found).snd ↔
        j ∈ found ∨ (j = iIdx ∧ ∃ p ∈ cat, p.snd.do_file_hashes_match installed = true) := by
  intro cat
  induction cat with
  | nil => intro avail found j; simp [scanCatalog]
  | cons hd rest ih =>
    obtain ⟨aIdx, a⟩ := hd
    intro avail found j
    by_cases h : a.do_file_hashes_match installed = true
    · rw [show scanCatalog iIdx installed ((aIdx, a) :: rest) avail found =
          scanCatalog iIdx installed rest
            (if avail.any (fun p => p.fst == aIdx) then avail else avail ++ [(aIdx, a)])
            (found ++ [iIdx]) by simp [scanCatalog, h]]
      rw [ih]
      simp only [List.mem_append, List.mem_cons, List.not_mem_nil, or_false]
      constructor
      · rintro ((hf | rfl) | ⟨rfl, p, hp, hm⟩)
        · exact Or.inl hf
        · exact Or.inr ⟨rfl, (aIdx, a), Or.inl rfl, h⟩
        · exact Or.inr ⟨rfl, p, Or.inr hp, hm⟩
      · rintro (hf | ⟨rfl, p, rfl | hp, hm⟩)
        · exact Or.inl (Or.inl hf)
        · exact Or.inl (Or.inr rfl)
        · exact Or.inr ⟨rfl, p, hp, hm⟩
    · rw [show scanCatalog iIdx installed ((aIdx, a) :: rest) avail found =
          scanCatalog iIdx installed rest avail found by simp [scanCatalog, h]]
      rw [ih]
      simp only [List.mem_cons]
      constructor
      · rintro (hf | ⟨rfl, p, hp, hm⟩)
        · exact Or.inl hf
        · exact Or.inr ⟨rfl, p, Or.inr hp, hm⟩
      · rintro (hf | ⟨rfl, p, hp | hp, hm⟩)
        · exact Or.inl hf
        · rw [hp] at hm; exact absurd hm h
        · exact Or.inr ⟨rfl, p, hp, hm⟩

/-- Membership in `installed_mods_found_available` after the whole outer
loop, provided the pending installed indices are distinct and none of them
has been recorded yet: an index ends up recorded iff it was already, or it
belongs to a pending installed mod that file-matches some catalog entry. -/
theorem go_found_mem (cat : List (Nat × Mod)) :
    ∀ (rest avail : List (Nat × Mod)) (found : List Nat),
      (rest.map Prod.fst).Nodup → (∀ p ∈ rest, p.fst ∉ found) →
      ∀ j, j ∈ (intersectGo rest cat avail found).snd ↔
        j ∈ found ∨ ∃ p ∈ rest, p.fst = j ∧
          ∃ q ∈ cat, q.snd.do_file_hashes_match p.snd = true := by
  intro rest
  induction rest with
  | nil => intro avail found _ _ j; simp [intersectGo]
  | cons hd rest ih =>
    obtain ⟨iIdx, installed⟩ := hd
    intro avail found hnodup hdisj j
    rw [List.map_cons, List.nodup_cons] at hnodup
    have hni : iIdx ∉ found := hdisj _ (List.mem_cons_self _ _)
    have hcont : found.contains iIdx = false := by simpa using hni
    rw [show intersectGo ((iIdx, installed) :: rest) cat avail found =
        intersectGo rest cat (scanCatalog iIdx installed cat avail found).fst
          (scanCatalog iIdx installed cat avail found).snd by
      simp only [intersectGo]; rw [hcont]; simp]
    rw [ih _ _ hnodup.2 ?hdisj j]
    case hdisj =>
      intro p hp hmem
      rcases (scan_found_mem iIdx installed cat avail found p.fst).1 hmem with hf | ⟨heq, _⟩
      · exact hdisj p (List.mem_cons_of_mem _ hp) hf
      · have hpm : p.fst ∈ rest.map Prod.fst := List.mem_map_of_mem Prod.fst hp
        rw [heq] at hpm
        exact hnodup.1 hpm
    rw [scan_found_mem]
    simp only [List.mem_cons]
    constructor
    · rintro ((hf | ⟨rfl, hq⟩) | ⟨p, hp, rfl, hq⟩)
      · exact Or.inl hf
      · exact Or.inr ⟨(j, installed), Or.inl rfl, rfl, hq⟩
      · exact Or.inr ⟨p, Or.inr hp, rfl, hq⟩
    · rintro (hf | ⟨p, hp | hp, rfl, hq⟩)
      · exact Or.inl (Or.inl hf)
      · exact Or.inl (Or.inr ⟨by rw [hp], by rw [hp] at hq; exact hq⟩)
      · exact Or.inr ⟨p, hp, rfl, hq⟩

theorem contains_eq_true_iff (l : List Nat) (a : Nat) : l.contains a = true ↔ a ∈ l := by
  simp

/-- The `installed_not_available` half of the reconciliation: exactly the
installed mods that file-match no catalog entry, in input order. -/
theorem intersect_snd_eq (L C : List Mod) :
    (intersect_against_available L C).snd
      = L.filter (fun m => !(C.any (fun a => a.do_file_hashes_match m))) := by
  have hdef : (intersect_against_available L C).snd
      = (L.enum.filter
          (fun p => !(intersectGo L.enum C.enum [] []).snd.contains p.fst)).map Prod.snd := rfl
  rw [hdef]
  have hmem : ∀ p ∈ L.enum,
      (!(intersectGo L.enum C.enum [] []).snd.contains p.fst)
        = (!(C.any (fun a => a.do_file_hashes_match p.snd))) := by
    intro p hp
    have h1 : (intersectGo L.enum C.enum [] []).snd.contains p.fst = true ↔
        C.any (fun a => a.do_file_hashes_match p.snd) = true := by
      rw [contains_eq_true_iff]
      rw [go_found_mem C.enum L.enum [] [] (List.nodup_enum_map_fst L) (by simp) p.fst]
      rw [List.any_eq_true]
      constructor
      · rintro (hf | ⟨q, hq, hfst, r, hr, hm⟩)
        · simp at hf
        · have hsnd : q.snd = p.snd := enum_fst_inj hq hp hfst
          exact (exists_enum_snd (fun x => x.do_file_hashes_match p.snd = true) C).1
            ⟨r, hr, by rw [← hsnd]; exact hm⟩
      · rintro ⟨a, ha, hm⟩
        obtain ⟨r, hr, hrm⟩ :=
          (exists_enum_snd (fun x => x.do_file_hashes_match p.snd = true) C).2 ⟨a, ha, hm⟩
        exact Or.inr ⟨p, hp, rfl, r, hr, hrm⟩
    have h2 : (intersectGo L.enum C.enum [] []).snd.contains p.fst
        = C.any (fun a => a.do_file_hashes_match p.snd) := by
      rcases hc : (intersectGo L.enum C.enum [] []).snd.contains p.fst with _ | _
      · rcases ha : C.any (fun a => a.do_file_hashes_match p.snd) with _ | _
        · rfl
        · rw [← hc, h1, ha]
      · rw [(h1.1 hc).symm]
    rw [h2]
  rw [List.filter_congr hmem]
  exact enumFrom_filter_map_snd (fun m => !(C.any (fun a => a.do_file_hashes_match m))) L 0

/-- Scanning a catalog whose indices are distinct and all new to
`installed_available` appends exactly the file-matching entries, in
catalog order. -/
theorem scan_avail_filter (iIdx : Nat) (installed : Mod) :
    ∀ (cat avail : List (Nat × Mod)) (found : List Nat),
      (cat.map Prod.fst).Nodup → (∀ p ∈ cat, p.fst ∉ avail.map Prod.fst) →
      (scanCatalog iIdx installed cat avail found).fst
        = avail ++ cat.filter (fun p => p.snd.do_file_hashes_match installed) := by
  intro cat
  induction cat with
  | nil => intro avail found _ _; simp [scanCatalog]
  | cons hd rest ih =>
    obtain ⟨aIdx, a⟩ := hd
    intro avail found hnodup hfresh
    rw [List.map_cons, List.nodup_cons] at hnodup
    have hnew : aIdx ∉ avail.map Prod.fst := hfresh _ (List.mem_cons_self _ _)
    have hguard : avail.any (fun p => p.fst == aIdx) = false := by
      rw [List.any_eq_false]
      intro p hp
      simp only [beq_iff_eq]
      intro hpe
      exact hnew (hpe ▸ List.mem_map_of_mem Prod.fst hp)
    by_cases h : a.do_file_hashes_match installed = true
    · rw [show scanCatalog iIdx installed ((aIdx, a) :: rest) avail found =
          scanCatalog iIdx installed rest (avail ++ [(aIdx, a)]) (found ++ [iIdx]) by
        simp [scanCatalog, h, hguard]]
      rw [ih (avail ++ [(aIdx, a)]) (found ++ [iIdx]) hnodup.2 ?fresh]
      case fresh =>
        intro p hp
        simp only [List.map_append, List.mem_append, List.map_cons, List.mem_singleton,
          List.map_nil, List.mem_cons, List.not_mem_nil, or_false]
        rintro (hmem | hpe)
        · exact hfresh p (List.mem_cons_of_mem _ hp) hmem
        · have hpm : p.fst ∈ rest.map Prod.fst := List.mem_map_of_mem Prod.fst hp
          rw [hpe] at hpm
          exact hnodup.1 hpm
      simp [List.filter_cons, h]
    · rw [show scanCatalog iIdx installed ((aIdx, a) :: rest) avail found =
          scanCatalog iIdx installed rest avail found by simp [scanCatalog, h]]
      rw [ih avail found hnodup.2 (fun p hp => hfresh p (List.mem_cons_of_mem _ hp))]
      simp [List.filter_cons, h]

/-- The catalog-index trace of `installed_available` stays duplicate-free
through one catalog scan: an entry is appended only after the identity
membership test fails. -/
theorem scan_avail_nodup (iIdx : Nat) (installed : Mod) :
    ∀ (cat avail : List (Nat × Mod)) (found : List Nat),
      (avail.map Prod.fst).Nodup →
      ((scanCatalog iIdx installed cat avail found).fst.map Prod.fst).Nodup := by
  intro cat
  induction cat with
  | nil => intro avail found h; simpa [scanCatalog] using h
  | cons hd rest ih =>
    obtain ⟨aIdx, a⟩ := hd
    intro avail found h
    by_cases hm : a.do_file_hashes_match installed = true
    · rcases hg : avail.any (fun p => p.fst == aIdx) with _ | _
      · have hnew : aIdx ∉ avail.map Prod.fst := by
          rw [List.any_eq_false] at hg
          intro hmem
          obtain ⟨p, hp, hpe⟩ := List.mem_map.1 hmem
          exact absurd (by simpa using hpe) (by simpa using hg p hp)
        rw [show scanCatalog iIdx installed ((aIdx, a) :: rest) avail found =
            scanCatalog iIdx installed rest (avail ++ [(aIdx, a)]) (found ++ [iIdx]) by
          simp [scanCatalog, hm, hg]]
        exact ih _ _ (by simp [List.nodup_append, h, hnew])
      · rw [show scanCatalog iIdx installed ((aIdx, a) :: rest) avail found =
            scanCatalog iIdx installed rest avail (found ++ [iIdx]) by
          simp [scanCatalog, hm, hg]]
        exact ih _ _ h
    · rw [show scanCatalog iIdx installed ((aIdx, a) :: rest) avail found =
          scanCatalog iIdx installed rest avail found by simp [scanCatalog, hm]]
      exact ih _ _ h

/-- Entries of `installed_available` after one catalog scan come from the
accumulator or from the catalog. -/
theorem scan_avail_sub (iIdx : Nat) (installed : Mod) :
    ∀ (cat avail : List (Nat × Mod)) (found : List Nat) (p : Nat × Mod),
      p ∈ (scanCatalog iIdx installed cat avail found).fst → p ∈ avail ∨ p ∈ cat := by
  intro cat
  induction cat with
  | nil =>
    intro avail found p hp
    simp [scanCatalog] at hp
    exact Or.inl hp
  | cons hd rest ih =>
    obtain ⟨aIdx, a⟩ := hd
    intro avail found p hp
    by_cases hm : a.do_file_hashes_match installed = true
    · rcases hg : avail.any (fun q => q.fst == aIdx) with _ | _
      · rw [show scanCatalog iIdx installed ((aIdx, a) :: rest) avail found =
            scanCatalog iIdx installed rest (avail ++ [(aIdx, a)]) (found ++ [iIdx]) by
          simp [scanCatalog, hm, hg]] at hp
        rcases ih _ _ _ hp with hin | hin
        · rcases List.mem_append.1 hin with hin | hin
          · exact Or.inl hin
          · rw [List.mem_singleton.1 hin]
            exact Or.inr (List.mem_cons_self _ _)
        · exact Or.inr (List.mem_cons_of_mem _ hin)
      · rw [show scanCatalog iIdx installed ((aIdx, a) :: rest) avail found =
            scanCatalog iIdx installed rest avail (found ++ [iIdx]) by
          simp [scanCatalog, hm, hg]] at hp
        rcases ih _ _ _ hp with hin | hin
        · exact Or.inl hin
        · exact Or.inr (List.mem_cons_of_mem _ hin)
    · rw [show scanCatalog iIdx installed ((aIdx, a) :: rest) avail found =
          scanCatalog iIdx installed rest avail found by simp [scanCatalog, hm]] at hp
      rcases ih _ _ _ hp with hin | hin
      · exact Or.inl hin
      · exact Or.inr (List.mem_cons_of_mem _ hin)

/-- The catalog-index trace of `installed_available` stays duplicate-free
through the whole outer loop. -/
theorem go_avail_nodup (cat : List (Nat × Mod)) :
    ∀ (rest avail : List (Nat × Mod)) (found : List Nat),
      (avail.map Prod.fst).Nodup →
      ((intersectGo rest cat avail found).fst.map Prod.fst).Nodup := by
  intro rest
  induction rest with
  | nil => intro avail found h; simpa [intersectGo] using h
  | cons hd rest ih =>
    obtain ⟨iIdx, installed⟩ := hd
    intro avail found h
    rcases hc : found.contains iIdx with _ | _
    · rw [show intersectGo ((iIdx, installed) :: rest) cat avail found =
          intersectGo rest cat (scanCatalog iIdx installed cat avail found).fst
            (scanCatalog iIdx installed cat avail found).snd by
        simp only [intersectGo]; rw [hc]; simp]
      exact ih _ _ (scan_avail_nodup iIdx installed cat avail found h)
    · rw [show intersectGo ((iIdx, installed) :: rest) cat avail found =
          intersectGo rest cat avail found by simp only [intersectGo]; rw [hc]; simp]
      exact ih _ _ h

/-- Entries of `installed_available` after the whole outer loop come from
the accumulator or from the catalog. -/
theorem go_avail_sub (cat : List (Nat × Mod)) :
    ∀ (rest avail : List (Nat × Mod)) (found : List Nat) (p : Nat × Mod),
      p ∈ (intersectGo rest cat avail found).fst → p ∈ avail ∨ p ∈ cat := by
  intro rest
  induction rest with
  | nil =>
    intro avail found p hp
    simp [intersectGo] at hp
    exact Or.inl hp
  | cons hd rest ih =>
    obtain ⟨iIdx, installed⟩ := hd
    intro avail found p hp
    rcases hc : found.contains iIdx with _ | _
    · rw [show intersectGo ((iIdx, installed) :: rest) cat avail found =
          intersectGo rest cat (scanCatalog iIdx installed cat avail found).fst
            (scanCatalog iIdx installed cat avail found).snd by
        simp only [intersectGo]; rw [hc]; simp] at hp
      rcases ih _ _ _ hp with hin | hin
      · exact scan_avail_sub iIdx installed cat avail found p hin
      · exact Or.inr hin
    · rw [show intersectGo ((iIdx, installed) :: rest) cat avail found =
          intersectGo rest cat avail found by simp only [intersectGo]; rw [hc]; simp] at hp
      exact ih _ _ _ hp

/-- A catalog index already in the `installed_available` trace survives a
catalog scan: entries are only ever appended, never removed. -/
theorem scan_avail_mono (iIdx : Nat) (installed : Mod) :
    ∀ (cat avail : List (Nat × Mod)) (found : List Nat) (j : Nat),
      j ∈ avail.map Prod.fst →
      j ∈ (scanCatalog iIdx installed cat avail found).fst.map Prod.fst := by
  intro cat
  induction cat with
  | nil => intro avail found j hj; simpa [scanCatalog] using hj
  | cons hd rest ih =>
    obtain ⟨aIdx, a⟩ := hd
    intro avail found j hj
    by_cases hm : a.do_file_hashes_match installed = true
    · rcases hg : avail.any (fun p => p.fst == aIdx) with _ | _
      · rw [show scanCatalog iIdx installed ((aIdx, a) :: rest) avail found =
            scanCatalog iIdx installed rest (avail ++ [(aIdx, a)]) (found ++ [iIdx]) by
          simp [scanCatalog, hm, hg]]
        refine ih _ _ j ?_
        rw [List.map_append, List.mem_append]
        exact Or.inl hj
      · rw [show scanCatalog iIdx installed ((aIdx, a) :: rest) avail found =
            scanCatalog iIdx installed rest avail (found ++ [iIdx]) by
          simp [scanCatalog, hm, hg]]
        exact ih _ _ j hj
    · rw [show scanCatalog iIdx installed ((aIdx, a) :: rest) avail found =
          scanCatalog iIdx installed rest avail found by simp [scanCatalog, hm]]
      exact ih _ _ j hj

/-- A catalog entry that file-matches the scanned installed mod ends up in
the `installed_available` trace: either the membership guard already found
its index there, or the entry is appended. -/
theorem scan_avail_adds (iIdx : Nat) (installed : Mod) :
    ∀ (cat avail : List (Nat × Mod)) (found : List Nat) (q : Nat × Mod),
      q ∈ cat → q.snd.do_file_hashes_match installed = true →
      q.fst ∈ (scanCatalog iIdx installed cat avail found).fst.map Prod.fst := by
  intro cat
  induction cat with
  | nil => intro _ _ q hq _; simp at hq
  | cons hd rest ih =>
    obtain ⟨aIdx, a⟩ := hd
    intro avail found q hq hqm
    rcases List.mem_cons.1 hq with rfl | hq'
    · have hm : a.do_file_hashes_match installed = true := hqm
      rcases hg : avail.any (fun p => p.fst == aIdx) with _ | _
      · rw [show scanCatalog iIdx installed ((aIdx, a) :: rest) avail found =
            scanCatalog iIdx installed rest (avail ++ [(aIdx, a)]) (found ++ [iIdx]) by
          simp [scanCatalog, hm, hg]]
        refine scan_avail_mono iIdx installed rest _ _ aIdx ?_
        simp
      · rw [show scanCatalog iIdx installed ((aIdx, a) :: rest) avail found =
            scanCatalog iIdx installed rest avail (found ++ [iIdx]) by
          simp [scanCatalog, hm, hg]]
        refine scan_avail_mono iIdx installed rest _ _ aIdx ?_
        rw [List.any_eq_true] at hg
        obtain ⟨p, hp, hpe⟩ := hg
        have hfe : p.fst = aIdx := by simpa using hpe
        rw [← hfe]
        exact List.mem_map_of_mem Prod.fst hp
    · by_cases hm : a.do_file_hashes_match installed = true
      · rcases hg : avail.any (fun p => p.fst == aIdx) with _ | _
        · rw [show scanCatalog iIdx installed ((aIdx, a) :: rest) avail found =
              scanCatalog iIdx installed rest (avail ++ [(aIdx, a)]) (found ++ [iIdx]) by
            simp [scanCatalog, hm, hg]]
          exact ih _ _ q hq' hqm
        · rw [show scanCatalog iIdx installed ((aIdx, a) :: rest) avail found =
              scanCatalog iIdx installed rest avail (found ++ [iIdx]) by
            simp [scanCatalog, hm, hg]]
          exact ih _ _ q hq' hqm
      · rw [show scanCatalog iIdx installed ((aIdx, a) :: rest) avail found =
            scanCatalog iIdx installed rest avail found by simp [scanCatalog, hm]]
        exact ih _ _ q hq' hqm

/-- A catalog index already in the `installed_available` trace survives
the whole outer loop. -/
theorem go_avail_mono (cat : List (Nat × Mod)) :
    ∀ (rest avail : List (Nat × Mod)) (found : List Nat) (j : Nat),
      j ∈ avail.map Prod.fst →
      j ∈ (intersectGo rest cat avail found).fst.map Prod.fst := by
  intro rest
  induction rest with
  | nil => intro avail found j hj; simpa [intersectGo] using hj
  | cons hd rest ih =>
    obtain ⟨iIdx, installed⟩ := hd
    intro avail found j hj
    rcases hc : found.contains iIdx with _ | _
    · rw [show intersectGo ((iIdx, installed) :: rest) cat avail found =
          intersectGo rest cat (scanCatalog iIdx installed cat avail found).fst
            (scanCatalog iIdx installed cat avail found).snd by
        simp only [intersectGo]; rw [hc]; simp]
      exact ih _ _ j (scan_avail_mono iIdx installed cat avail found j hj)
    · rw [show intersectGo ((iIdx, installed) :: rest) cat avail found =
          intersectGo rest cat avail found by simp only [intersectGo]; rw [hc]; simp]
      exact ih _ _ j hj

/-- Presence: under the loop invariants, a catalog entry that file-matches
some pending installed mod ends up in the `installed_available` trace. -/
theorem go_avail_adds (cat : List (Nat × Mod)) :
    ∀ (rest avail : List (Nat × Mod)) (found : List Nat),
      (rest.map Prod.fst).Nodup → (∀ p ∈ rest, p.fst ∉ found) →
      ∀ p ∈ rest, ∀ q ∈ cat, q.snd.do_file_hashes_match p.snd = true →
      q.fst ∈ (intersectGo rest cat avail found).fst.map Prod.fst := by
  intro rest
  induction rest with
  | nil => intro _ _ _ _ p hp; simp at hp
  | cons hd rest ih =>
    obtain ⟨iIdx, installed⟩ := hd
    intro avail found hnodup hdisj p hp q hq hqm
    rw [List.map_cons, List.nodup_cons] at hnodup
    have hni : iIdx ∉ found := hdisj _ (List.mem_cons_self _ _)
    have hcont : found.contains iIdx = false := by simpa using hni
    rw [show intersectGo ((iIdx, installed) :: rest) cat avail found =
        intersectGo rest cat (scanCatalog iIdx installed cat avail found).fst
          (scanCatalog iIdx installed cat avail found).snd by
      simp only [intersectGo]; rw [hcont]; simp]
    rcases List.mem_cons.1 hp with rfl | hp'
    · exact go_avail_mono cat rest _ _ q.fst
        (scan_avail_adds iIdx installed cat avail found q hq hqm)
    · refine ih _ _ hnodup.2 ?_ p hp' q hq hqm
      intro r hr hrmem
      rcases (scan_found_mem iIdx installed cat avail found r.fst).1 hrmem with hf | ⟨heq, _⟩
      · exact hdisj r (List.mem_cons_of_mem _ hr) hf
      · have hpm : r.fst ∈ rest.map Prod.fst := List.mem_map_of_mem Prod.fst hr
        rw [heq] at hpm
        exact hnodup.1 hpm

/-- Reconciling against an empty catalog records nothing. -/
theorem intersectGo_nil_catalog :
    ∀ (rest avail : List (Nat × Mod)) (found : List Nat),
      intersectGo rest [] avail found = (avail, found) := by
  intro rest
  induction rest with
  | nil => intro avail found; rfl
  | cons hd rest ih =>
    obtain ⟨iIdx, installed⟩ := hd
    intro avail found
    rcases hc : found.contains iIdx with _ | _ <;>
      · rw [show intersectGo ((iIdx, installed) :: rest) [] avail found =
            intersectGo rest [] avail found by
          simp only [intersectGo, scanCatalog]; rw [hc]; simp]
        exact ih avail found

/-! ## Helper lemmas: upgrade diff -/

/-- Through the diff loop, provided the pending indices are distinct and
unrecorded, the emitted pairs carry exactly the pending installed mods, in
order. -/
theorem diffGo_map_fst (available : List Mod) :
    ∀ (rest : List (Nat × Mod)) (pairs : List (Mod × Option Mod)) (found : List Nat),
      (rest.map Prod.fst).Nodup → (∀ p ∈ rest, p.fst ∉ found) →
      (upgradeDiffGo rest available pairs found).map Prod.fst
        = pairs.map Prod.fst ++ rest.map Prod.snd := by
  intro rest
  induction rest with
  | nil => intro pairs found _ _; simp [upgradeDiffGo]
  | cons hd rest ih =>
    obtain ⟨iIdx, installed⟩ := hd
    intro pairs found hnodup hdisj
    rw [List.map_cons, List.nodup_cons] at hnodup
    have hni : iIdx ∉ found := hdisj _ (List.mem_cons_self _ _)
    have hcont : found.contains iIdx = false := by simpa using hni
    rcases hf : available.find? (fun a => installed.do_names_match a) with _ | a
    · rw [show upgradeDiffGo ((iIdx, installed) :: rest) available pairs found =
          upgradeDiffGo rest available (pairs ++ [(installed, none)]) found by
        simp only [upgradeDiffGo]; rw [hcont, hf]; simp]
      rw [ih _ _ hnodup.2 (fun p hp => hdisj p (List.mem_cons_of_mem _ hp))]
      simp
    · rw [show upgradeDiffGo ((iIdx, installed) :: rest) available pairs found =
          upgradeDiffGo rest available (pairs ++ [(installed, some a)]) (found ++ [iIdx]) by
        simp only [upgradeDiffGo]; rw [hcont, hf]; simp]
      rw [ih _ _ hnodup.2 ?fresh]
      case fresh =>
        intro p hp
        simp only [List.mem_append, List.mem_cons, List.not_mem_nil, or_false]
        rintro (hmem | hpe)
        · exact hdisj p (List.mem_cons_of_mem _ hp) hmem
        · have hpm : p.fst ∈ rest.map Prod.fst := List.mem_map_of_mem Prod.fst hp
          rw [hpe] at hpm
          exact hnodup.1 hpm
      simp

/-! ## Claim theorems: reconciliation and diff -/

/-- Claim C1 (counterexample): a local entity sharing a file hash with two
distinct catalog entities gets BOTH appended to `installed_available` —
the source's inner catalog loop has no break, so the claimed first-match
rule does not hold. -/
theorem c1_first_match_counterexample :
    (intersect_against_available
        [Mod.mk "local" none none [[⟨"f", "aa"⟩]]]
        [Mod.mk "A1" (some "1") none [[⟨"g", "aa"⟩]],
         Mod.mk "A2" (some "1") none [[⟨"h", "aa"⟩]]]).fst
      = [Mod.mk "A1" (some "1") none [[⟨"g", "aa"⟩]],
         Mod.mk "A2" (some "1") none [[⟨"h", "aa"⟩]]]
    ∧ Mod.mk "A1" (some "1") none [[⟨"g", "aa"⟩]] ≠ Mod.mk "A2" (some "1") none [[⟨"h", "aa"⟩]]
    ∧ (Mod.mk "A1" (some "1") none [[⟨"g", "aa"⟩]]).do_file_hashes_match
        (Mod.mk "local" none none [[⟨"f", "aa"⟩]]) = true
    ∧ (Mod.mk "A2" (some "1") none [[⟨"h", "aa"⟩]]).do_file_hashes_match
        (Mod.mk "local" none none [[⟨"f", "aa"⟩]]) = true := by
  refine ⟨by decide, by decide, by decide, by decide⟩

/-- Claim C1 (amended): the reconciliation appends, on account of a local
entity, EVERY catalog entity sharing a file with it, in catalog order —
not only the first: for a single local entity the known subset is exactly
the filter of the catalog by file-matching. -/
theorem c1_all_sharing_catalog_entities_appended (installed : Mod) (catalog : List Mod) :
    (intersect_against_available [installed] catalog).fst
      = catalog.filter (fun a => a.do_file_hashes_match installed) := by
  have hdef : (intersect_against_available [installed] catalog).fst
      = (intersectGo [installed].enum catalog.enum [] []).fst.map Prod.snd := rfl
  rw [hdef]
  rw [show [installed].enum = [(0, installed)] from rfl]
  rw [show intersectGo [(0, installed)] catalog.enum [] []
      = intersectGo [] catalog.enum (scanCatalog 0 installed catalog.enum [] []).fst
          (scanCatalog 0 installed catalog.enum [] []).snd by
    simp only [intersectGo]
    rw [show ([] : List Nat).contains 0 = false from rfl]
    simp]
  rw [show ∀ (av : List (Nat × Mod)) (fd : List Nat),
      intersectGo [] catalog.enum av fd = (av, fd) from fun av fd => rfl]
  rw [scan_avail_filter 0 installed catalog.enum [] []
    (List.nodup_enum_map_fst catalog) (by simp)]
  simp only [List.nil_append]
  exact enumFrom_filter_map_snd (fun a => a.do_file_hashes_match installed) catalog 0

/-- Claim C3: the upgrade diff is total — every input entity produces
exactly one output pair: the output has the same length as the input, and
projecting the pairs to their first components gives back the input. -/
theorem c3_diff_totality (installed available : List Mod) :
    (upgrade_diff installed available).length = installed.length
    ∧ (upgrade_diff installed available).map Prod.fst = installed := by
  have h2 : (upgrade_diff installed available).map Prod.fst = installed := by
    have h := diffGo_map_fst available installed.enum [] []
      (List.nodup_enum_map_fst installed) (by simp)
    simpa [upgrade_diff, List.enum_map_snd] using h
  refine ⟨?_, h2⟩
  have hl := congrArg List.length h2
  simpa using hl

/-- Claim C6: if two distinct local entities (at distinct positions of the
local list) both file-match the same catalog entity, the known subset
contains that catalog entity exactly once — the catalog-index trace of
`installed_available` is duplicate-free, the matched entry's index occurs
exactly once in it, and the matched catalog entity itself is present in
the known subset. -/
theorem c6_dedup_invariant (L C : List Mod) (i1 i2 j : Nat) (m1 m2 a : Mod)
    (h1 : (i1, m1) ∈ L.enum) (_h2 : (i2, m2) ∈ L.enum) (_hne : i1 ≠ i2)
    (hj : (j, a) ∈ C.enum)
    (hm1 : a.do_file_hashes_match m1 = true)
    (_hm2 : a.do_file_hashes_match m2 = true) :
    ((intersectGo L.enum C.enum [] []).fst.map Prod.fst).Nodup
    ∧ ((intersectGo L.enum C.enum [] []).fst.map Prod.fst).count j = 1
    ∧ a ∈ (intersect_against_available L C).fst := by
  have hnd : ((intersectGo L.enum C.enum [] []).fst.map Prod.fst).Nodup :=
    go_avail_nodup C.enum L.enum [] [] (by simp)
  have hmem : j ∈ (intersectGo L.enum C.enum [] []).fst.map Prod.fst := by
    have hadds := go_avail_adds C.enum L.enum [] [] (List.nodup_enum_map_fst L) (by simp)
      (i1, m1) h1 (j, a) hj hm1
    simpa using hadds
  have hcount : ((intersectGo L.enum C.enum [] []).fst.map Prod.fst).count j = 1 :=
    List.count_eq_one_of_mem hnd hmem
  obtain ⟨pr, hpr, hpfst⟩ := List.mem_map.1 hmem
  have hprC : pr ∈ C.enum := by
    rcases go_avail_sub C.enum L.enum [] [] pr hpr with hin | hin
    · simp at hin
    · exact hin
  have hsnd : pr.snd = a := enum_fst_inj hprC hj (show pr.fst = (j, a).fst from hpfst)
  have hval : a ∈ (intersect_against_available L C).fst := by
    have hdef : (intersect_against_available L C).fst
        = (intersectGo L.enum C.enum [] []).fst.map Prod.snd := rfl
    rw [hdef, ← hsnd]
    exact List.mem_map_of_mem Prod.snd hpr
  exact ⟨hnd, hcount, hval⟩

/-- Claim C6 (witness): two distinct local entities both file-matching the
one catalog entity leave it present exactly once in the known subset. -/
theorem c6_dedup_invariant_witness :
    ((intersectGo
        [Mod.mk "L1" none none [[⟨"pa", "aa"⟩]],
         Mod.mk "L2" none none [[⟨"pb", "aa"⟩]]].enum
        [Mod.mk "A" (some "1") none [[⟨"pc", "aa"⟩]]].enum [] []).fst.map Prod.fst).Nodup
    ∧ ((intersectGo
        [Mod.mk "L1" none none [[⟨"pa", "aa"⟩]],
         Mod.mk "L2" none none [[⟨"pb", "aa"⟩]]].enum
        [Mod.mk "A" (some "1") none [[⟨"pc", "aa"⟩]]].enum [] []).fst.map Prod.fst).count 0 = 1
    ∧ Mod.mk "A" (some "1") none [[⟨"pc", "aa"⟩]]
        ∈ (intersect_against_available
            [Mod.mk "L1" none none [[⟨"pa", "aa"⟩]], Mod.mk "L2" none none [[⟨"pb", "aa"⟩]]]
            [Mod.mk "A" (some "1") none [[⟨"pc", "aa"⟩]]]).fst :=
  c6_dedup_invariant
    [Mod.mk "L1" none none [[⟨"pa", "aa"⟩]], Mod.mk "L2" none none [[⟨"pb", "aa"⟩]]]
    [Mod.mk "A" (some "1") none [[⟨"pc", "aa"⟩]]] 0 1 0
    (Mod.mk "L1" none none [[⟨"pa", "aa"⟩]]) (Mod.mk "L2" none none [[⟨"pb", "aa"⟩]])
    (Mod.mk "A" (some "1") none [[⟨"pc", "aa"⟩]])
    (by decide) (by decide) (by decide) (by decide) (by decide) (by decide)

/-- Claim C7: the unknown subset is exactly the list of local entities
that file-match no catalog entity, in original input order; every local
entity either file-matches some catalog entity or lands in the unknown
subset, and never both. -/
theorem c7_reconciliation_partition (L C : List Mod) (m : Mod) (hm : m ∈ L) :
    (intersect_against_available L C).snd
      = L.filter (fun x => !(C.any (fun a => a.do_file_hashes_match x)))
    ∧ (C.any (fun a => a.do_file_hashes_match m) = true
        ∨ m ∈ (intersect_against_available L C).snd)
    ∧ ¬(C.any (fun a => a.do_file_hashes_match m) = true
        ∧ m ∈ (intersect_against_available L C).snd) := by
  have he := intersect_snd_eq L C
  refine ⟨he, ?_, ?_⟩
  · rcases hc : C.any (fun a => a.do_file_hashes_match m) with _ | _
    · refine Or.inr ?_
      rw [he]
      refine List.mem_filter.2 ⟨hm, ?_⟩
      rw [hc]
      rfl
    · exact Or.inl rfl
  · rintro ⟨hany, hmem⟩
    rw [he] at hmem
    have hpred := (List.mem_filter.1 hmem).2
    rw [hany] at hpred
    simp at hpred

/-- Claim C7 (witness): a local entity with no catalog match appears in
the unknown subset of a reconciliation against the empty catalog. -/
theorem c7_reconciliation_partition_witness :
    (intersect_against_available [Mod.mk "Solo" none none [[⟨"pf", "aa"⟩]]] []).snd
      = [Mod.mk "Solo" none none [[⟨"pf", "aa"⟩]]].filter
          (fun x => !(([] : List Mod).any (fun a => a.do_file_hashes_match x)))
    ∧ (([] : List Mod).any
          (fun a => a.do_file_hashes_match (Mod.mk "Solo" none none [[⟨"pf", "aa"⟩]])) = true
        ∨ Mod.mk "Solo" none none [[⟨"pf", "aa"⟩]]
            ∈ (intersect_against_available [Mod.mk "Solo" none none [[⟨"pf", "aa"⟩]]] []).snd)
    ∧ ¬(([] : List Mod).any
          (fun a => a.do_file_hashes_match (Mod.mk "Solo" none none [[⟨"pf", "aa"⟩]])) = true
        ∧ Mod.mk "Solo" none none [[⟨"pf", "aa"⟩]]
            ∈ (intersect_against_available [Mod.mk "Solo" none none [[⟨"pf", "aa"⟩]]] []).snd) :=
  c7_reconciliation_partition [Mod.mk "Solo" none none [[⟨"pf", "aa"⟩]]] []
    (Mod.mk "Solo" none none [[⟨"pf", "aa"⟩]]) (List.mem_cons_self _ _)

/-- Claim C9: degenerate inputs never fault — an empty local set
reconciles to two empty outputs, a non-empty local set against an empty
catalog reconciles to an empty known subset and the whole input as the
unknown subset, an empty known set diffs to the empty pairing, and an
entity with zero file groups matches nothing in either direction. -/
theorem c9_degenerate_inputs (C L A : List Mod) (m o : Mod) (hm : m.files = []) :
    intersect_against_available [] C = ([], [])
    ∧ intersect_against_available L [] = ([], L)
    ∧ upgrade_diff [] A = []
    ∧ m.do_file_hashes_match o = false
    ∧ o.do_file_hashes_match m = false := by
  refine ⟨rfl, ?_, rfl, ?_, ?_⟩
  · rw [Prod.ext_iff]
    constructor
    · show (intersectGo L.enum ([] : List Mod).enum [] []).fst.map Prod.snd = _
      rw [show ([] : List Mod).enum = [] from rfl, intersectGo_nil_catalog]
      rfl
    · show (L.enum.filter
          (fun p => !(intersectGo L.enum ([] : List Mod).enum [] []).snd.contains p.fst)).map
          Prod.snd = _
      rw [show ([] : List Mod).enum = [] from rfl, intersectGo_nil_catalog]
      have hcongr : ∀ p ∈ L.enum,
          (!(([] : List Nat).contains p.fst)) = (fun _ : Nat × Mod => true) p :=
        fun p _ => rfl
      rw [List.filter_congr hcongr]
      simp [List.enum_map_snd]
  · simp [Mod.do_file_hashes_match, hm]
  · simp [Mod.do_file_hashes_match, hm]

/-- Claim C9 (witness): the degenerate equations at concrete inputs, with
a concrete zero-file-group entity matching nothing. -/
theorem c9_degenerate_inputs_witness :
    intersect_against_available [] [] = ([], [])
    ∧ intersect_against_available [Mod.mk "X" none none [[⟨"pf", "bb"⟩]]] []
        = ([], [Mod.mk "X" none none [[⟨"pf", "bb"⟩]]])
    ∧ upgrade_diff [] [] = []
    ∧ (Mod.mk "Empty" none none []).do_file_hashes_match
        (Mod.mk "Other" none none [[⟨"pf", "aa"⟩]]) = false
    ∧ (Mod.mk "Other" none none [[⟨"pf", "aa"⟩]]).do_file_hashes_match
        (Mod.mk "Empty" none none []) = false :=
  c9_degenerate_inputs [] [Mod.mk "X" none none [[⟨"pf", "bb"⟩]]] []
    (Mod.mk "Empty" none none []) (Mod.mk "Other" none none [[⟨"pf", "aa"⟩]]) rfl

/-! ## Claim theorems: display sort order -/

theorem beq_false_of_ne {a b : String} (h : a ≠ b) : (a == b) = false :=
  beq_eq_false_iff_ne.mpr h

/-- Claim C8: the canonical display order sorts the example names
`["Camera2", "BSIPA", "Chroma"]` to `["BSIPA", "Camera2", "Chroma"]`; the
sort key compares any two non-"BSIPA" names exactly as plain string order
does, and no key ever sorts strictly before the key of "BSIPA". -/
theorem c8_canonical_display_order (a b x : String) (ha : a ≠ "BSIPA") (hb : b ≠ "BSIPA") :
    ((pySorted modSortKey
        [Mod.mk "Camera2" none none [], Mod.mk "BSIPA" none none [],
         Mod.mk "Chroma" none none []]).map Mod.name = ["BSIPA", "Camera2", "Chroma"])
    ∧ strLt (mod_name_sort_order a) (mod_name_sort_order b) = strLt a b
    ∧ strLt (mod_name_sort_order x) (mod_name_sort_order "BSIPA") = false := by
  refine ⟨by decide, ?_, ?_⟩
  · rw [show mod_name_sort_order a = a by simp [mod_name_sort_order, beq_false_of_ne ha],
        show mod_name_sort_order b = b by simp [mod_name_sort_order, beq_false_of_ne hb]]
  · rw [show mod_name_sort_order "BSIPA" = "" from rfl]
    exact lexLt_nil_right ((mod_name_sort_order x).data)

/-- Claim C8 (witness): the sort-key laws at the concrete names
"Camera2", "Chroma" and "Apple". -/
theorem c8_canonical_display_order_witness :
    ((pySorted modSortKey
        [Mod.mk "Camera2" none none [], Mod.mk "BSIPA" none none [],
         Mod.mk "Chroma" none none []]).map Mod.name = ["BSIPA", "Camera2", "Chroma"])
    ∧ strLt (mod_name_sort_order "Camera2") (mod_name_sort_order "Chroma")
        = strLt "Camera2" "Chroma"
    ∧ strLt (mod_name_sort_order "Apple") (mod_name_sort_order "BSIPA") = false :=
  c8_canonical_display_order "Camera2" "Chroma" "Apple" (by decide) (by decide)

end BSUpgrade
